import Mathlib

/-!
Shallow embedding of the Rust-Load-Balancer core: the four selection
policies of src/algorithms/mod.rs and the per-connection dispatch pipeline
of src/balancer/mod.rs.  HashMaps are modelled as functions into Option,
tokio RwLock-guarded state as explicit state passing, and the random
sources (thread_rng weight draws, the test-IP pick, DefaultHasher) as
oracle parameters.
-/

/-- Rust slice check needle.is_prefix_of hay, on character lists. -/
def startsWithSeq : List Char → List Char → Bool
  | [], _ => true
  | _ :: _, [] => false
  | a :: as, b :: bs => a == b && startsWithSeq as bs

/-- Rust str::contains on character lists: the needle occurs as a
contiguous substring of the haystack. -/
def containsSeq (needle : List Char) : List Char → Bool
  | [] => startsWithSeq needle []
  | c :: rest => startsWithSeq needle (c :: rest) || containsSeq needle rest

/-- The literal scanned for by LoadBalancer::forward_request. -/
def metricsMarker : List Char := "GET /metrics".toList

/-- HashMap entry(server).or_insert(0) += 1, shared by every
record_request in src/algorithms/mod.rs. -/
def recordRequest (m : String → Option Nat) (server : String) :
    String → Option Nat :=
  fun t => if t = server then some ((m server).getD 0 + 1) else m t

/-! ## RoundRobin (src/algorithms/mod.rs lines 128-206) -/

structure RRState where
  current : Nat
  requests_served : String → Option Nat

/-- RoundRobin::next_server: empty pool returns None untouched; otherwise
the cursor is pre-incremented modulo the pool length, the backend at the
new cursor is returned and its served count recorded. -/
def rrNextServer (servers : List String) (st : RRState) :
    Option String × RRState :=
  if servers.isEmpty then (none, st)
  else
    let cur := (st.current + 1) % servers.length
    let server := servers.getD cur ""
    (some server, ⟨cur, recordRequest st.requests_served server⟩)

/-- RoundRobin::new. -/
def rrInit : RRState := ⟨0, fun _ => none⟩

/-! ## LeastConnections (src/algorithms/mod.rs lines 208-323) -/

structure LCState where
  connections : String → Option Int
  total_requests : String → Option Int
  successful_requests : String → Option Int

/-- LeastConnections::connection_started: bump connections and
total_requests entries (created at 0 when absent). -/
def lcConnectionStarted (st : LCState) (server : String) : LCState where
  connections :=
    fun t => if t = server then some ((st.connections server).getD 0 + 1)
             else st.connections t
  total_requests :=
    fun t => if t = server then some ((st.total_requests server).getD 0 + 1)
             else st.total_requests t
  successful_requests := st.successful_requests

/-- LeastConnections::connection_ended: only when a connections entry
exists and is positive, decrement it and bump successful_requests. -/
def lcConnectionEnded (st : LCState) (server : String) : LCState :=
  match st.connections server with
  | none => st
  | some count =>
    if 0 < count then
      { connections :=
          fun t => if t = server then some (count - 1) else st.connections t
        total_requests := st.total_requests
        successful_requests :=
          fun t =>
            if t = server then some ((st.successful_requests server).getD 0 + 1)
            else st.successful_requests t }
    else st

/-- Rust Iterator::min_by_key on a list: fold keeping the accumulator
unless a strictly smaller key appears, so the first minimum wins. -/
def minByKey (key : String → Int) : List String → Option String
  | [] => none
  | s :: rest => some (rest.foldl (fun acc x => if key x < key acc then x else acc) s)

/-- LeastConnections::next_server: empty pool gives None, otherwise the
pool member minimising the connections entry (absent entries read 0). -/
def lcNextServer (st : LCState) (servers : List String) : Option String :=
  if servers.isEmpty then none
  else minByKey (fun s => (st.connections s).getD 0) servers

/-- LeastConnections::new. -/
def lcInit : LCState := ⟨fun _ => none, fun _ => none, fun _ => none⟩

/-- One call into the LeastConnections tracking interface. -/
inductive LCEvent where
  | started (server : String)
  | ended (server : String)

def lcApply (st : LCState) : LCEvent → LCState
  | .started s => lcConnectionStarted st s
  | .ended s => lcConnectionEnded st s

/-- The LeastConnections state after a sequence of started/ended calls
beginning from the freshly constructed policy. -/
def lcRun (events : List LCEvent) : LCState := events.foldl lcApply lcInit

/-! ## WeightedRoundRobin (src/algorithms/mod.rs lines 325-444) -/

structure WRRState where
  current : Nat
  weights : String → Option Nat
  requests_served : String → Option Nat

/-- One step of WeightedRoundRobin::ensure_weights: insert a freshly drawn
weight for a server only when it has no entry.  fresh is the oracle for
rng.gen_range(1..=10). -/
def insertIfMissing (fresh : String → Nat) (m : String → Option Nat)
    (server : String) : String → Option Nat :=
  match m server with
  | some _ => m
  | none => fun t => if t = server then some (fresh server) else m t

/-- WeightedRoundRobin::ensure_weights over the whole pool. -/
def ensureWeights (fresh : String → Nat) (m : String → Option Nat)
    (servers : List String) : String → Option Nat :=
  servers.foldl (insertIfMissing fresh) m

/-- weights.get(s).unwrap_or(&1). -/
def wget (m : String → Option Nat) (s : String) : Nat := (m s).getD 1

/-- The accumulation walk of WeightedRoundRobin::next_server: running
cumulative weight, returning the first server whose cumulative weight
strictly exceeds the cursor. -/
def wrrWalk (w : String → Nat) (current : Nat) :
    List String → Nat → Option String
  | [], _ => none
  | s :: rest, acc =>
    if current < acc + w s then some s else wrrWalk w current rest (acc + w s)

/-- WeightedRoundRobin::next_server.  The Rust modulo panics when the
total weight is 0; every theorem below carries hypotheses that force the
total weight positive, matching the states the program can reach. -/
def wrrNextServer (fresh : String → Nat) (servers : List String)
    (st : WRRState) : Option String × WRRState :=
  if servers.isEmpty then (none, st)
  else
    let m := ensureWeights fresh st.weights servers
    let totalWeight := (servers.map (wget m)).sum
    let cur := (st.current + 1) % totalWeight
    match wrrWalk (wget m) cur servers 0 with
    | some server => (some server, ⟨cur, m, recordRequest st.requests_served server⟩)
    | none =>
      (some (servers.getD 0 ""),
       ⟨cur, m, recordRequest st.requests_served (servers.getD 0 "")⟩)

/-- WeightedRoundRobin::new with the supplied (possibly absent) map. -/
def wrrInit (weights : String → Option Nat) : WRRState := ⟨0, weights, fun _ => none⟩

/-! ## IpHash (src/algorithms/mod.rs lines 446-548) -/

structure IpHashState where
  requests_served : String → Option Nat
  ip_distribution : String → Option String

/-- IpHash::record_request. -/
def ipHashRecord (st : IpHashState) (server ip : String) : IpHashState where
  requests_served := recordRequest st.requests_served server
  ip_distribution := fun t => if t = ip then some server else st.ip_distribution t

/-- IpHash::next_server for a given drawn client key ip; h is the oracle
for the 64-bit DefaultHasher.  The chosen index is hash modulo pool
length. -/
def ipHashNextServer (h : String → Nat) (ip : String) (servers : List String)
    (st : IpHashState) : Option String × IpHashState :=
  if servers.isEmpty then (none, st)
  else
    let index := h ip % servers.length
    let server := servers.getD index ""
    (some server, ipHashRecord st server ip)

/-- IpHash::new. -/
def ipInit : IpHashState := ⟨fun _ => none, fun _ => none⟩

/-! ## Dispatcher pipeline (src/balancer/mod.rs lines 68-157) -/

/-- The observable events of one accepted connection: which backend was
dialed (if any), whether the in-band metrics response was written, and
for which backend a connection_started/connection_ended pair ran. -/
structure ConnOutcome (σ : Type) where
  dialed : Option String
  wroteMetricsResponse : Bool
  startedEnded : Option String
  final : σ

/-- A selection policy as the dispatcher uses it. -/
structure PolicyModel (σ : Type) where
  nextServer : List String → σ → Option String × σ
  connectionStarted : String → σ → σ
  connectionEnded : String → σ → σ

/-- One accepted connection as run by LoadBalancer::run and
LoadBalancer::forward_request: next_server first (dropping the client on
None), then connection_started, then the request is read and checked for
the metrics marker (answering locally on a hit, dialing the backend
otherwise), then connection_ended. -/
def handleConnection {σ : Type} (P : PolicyModel σ) (servers : List String)
    (st : σ) (request : List Char) : ConnOutcome σ :=
  match P.nextServer servers st with
  | (none, st2) => ⟨none, false, none, st2⟩
  | (some server, st2) =>
    let st3 := P.connectionStarted server st2
    if containsSeq metricsMarker request then
      ⟨none, true, some server, P.connectionEnded server st3⟩
    else
      ⟨some server, false, some server, P.connectionEnded server st3⟩

def rrPolicy : PolicyModel RRState where
  nextServer := rrNextServer
  connectionStarted := fun _ st => st
  connectionEnded := fun _ st => st

def lcPolicy : PolicyModel LCState where
  nextServer := fun servers st => (lcNextServer st servers, st)
  connectionStarted := fun s st => lcConnectionStarted st s
  connectionEnded := fun s st => lcConnectionEnded st s

def wrrPolicy (fresh : String → Nat) : PolicyModel WRRState where
  nextServer := wrrNextServer fresh
  connectionStarted := fun _ st => st
  connectionEnded := fun _ st => st

def ipPolicy (h : String → Nat) (ip : String) : PolicyModel IpHashState where
  nextServer := ipHashNextServer h ip
  connectionStarted := fun _ st => st
  connectionEnded := fun _ st => st

/-- The successive next_server outputs of n sequential calls. -/
def iterOutputs {σ : Type} (step : σ → Option String × σ) :
    σ → Nat → List (Option String)
  | _, 0 => []
  | st, n + 1 =>
    let r := step st
    r.1 :: iterOutputs step r.2 n

/-- The backend produced by the body of WeightedRoundRobin::next_server
for a given cursor value: the accumulation walk when it hits, the
fall-through servers[0] otherwise. -/
def wrrChoose (w : String → Nat) (servers : List String) (cur : Nat) : String :=
  match wrrWalk w cur servers 0 with
  | some s => s
  | none => servers.getD 0 ""

/-- The active connection count the LeastConnections policy reads for a
backend: the connections entry, 0 when absent. -/
def lcActive (st : LCState) (s : String) : Int := (st.connections s).getD 0

def lcTotal (st : LCState) (s : String) : Int := (st.total_requests s).getD 0

def lcSuccessful (st : LCState) (s : String) : Int :=
  (st.successful_requests s).getD 0

/-! ## Helper lemmas -/

theorem sumRangeAdd (f : Nat → Nat) (a b : Nat) :
    ∑ i in Finset.range (a + b), f i
      = (∑ i in Finset.range a, f i) + ∑ i in Finset.range b, f (a + i) := by
  induction b with
  | zero => simp
  | succ b ih =>
    rw [← Nat.add_assoc, Finset.sum_range_succ, ih, Finset.sum_range_succ,
      Nat.add_assoc]

theorem getD_mem_of_lt (l : List String) (i : Nat) (h : i < l.length) :
    l.getD i "" ∈ l := by
  rw [List.getD_eq_getElem l "" h]
  exact List.getElem_mem h

theorem sum_mod_shift (f : Nat → Nat) (m a : Nat) :
    ∑ i in Finset.range (m + 1), f ((a + 1 + i) % (m + 1))
      = ∑ i in Finset.range (m + 1), f ((a + i) % (m + 1)) := by
  rw [Finset.sum_range_succ, Finset.sum_range_succ' (fun i => f ((a + i) % (m + 1)))]
  have h1 : (a + 1 + m) % (m + 1) = (a + 0) % (m + 1) := by
    have h2 : a + 1 + m = a + (m + 1) := by omega
    rw [h2, Nat.add_mod_right]
    simp
  have h4 : (∑ i in Finset.range m, f ((a + 1 + i) % (m + 1)))
      = ∑ i in Finset.range m, f ((a + (i + 1)) % (m + 1)) := by
    apply Finset.sum_congr rfl
    intro i _
    have h5 : a + 1 + i = a + (i + 1) := by omega
    rw [h5]
  rw [h4, h1]

theorem sum_mod_cycle (f : Nat → Nat) (n : Nat) (hn : 0 < n) (a : Nat) :
    ∑ i in Finset.range n, f ((a + i) % n) = ∑ i in Finset.range n, f i := by
  obtain ⟨m, rfl⟩ : ∃ m, n = m + 1 := ⟨n - 1, by omega⟩
  induction a with
  | zero =>
    apply Finset.sum_congr rfl
    intro i hi
    rw [Nat.zero_add, Nat.mod_eq_of_lt (Finset.mem_range.mp hi)]
  | succ a ih =>
    rw [← ih]
    exact sum_mod_shift f m a

theorem count_map_range (f : Nat → Option String) (s : String) (N : Nat) :
    ((List.range N).map f).count (some s)
      = ∑ i in Finset.range N, (if f i = some s then 1 else 0) := by
  induction N with
  | zero => rfl
  | succ N ih =>
    rw [List.range_succ, List.map_append, List.count_append, ih,
      Finset.sum_range_succ]
    simp [List.count_singleton, beq_iff_eq]

theorem count_cycle (F : Nat → Nat) (M : Nat) (hM : 0 < M) (a k : Nat) :
    ∑ i in Finset.range (k * M), F ((a + i) % M)
      = k * ∑ j in Finset.range M, F j := by
  induction k with
  | zero => simp
  | succ k ih =>
    have hsplit : (k + 1) * M = k * M + M := by ring
    rw [hsplit, sumRangeAdd, ih]
    have h5 : ∑ i in Finset.range M, F ((a + (k * M + i)) % M)
        = ∑ j in Finset.range M, F j := by
      have h4 : ∀ i : Nat, a + (k * M + i) = (a + k * M) + i := by omega
      simp only [h4]
      exact sum_mod_cycle F M hM (a + k * M)
    rw [h5]
    ring

theorem foldlMinBy_spec (key : String → Int) (l : List String) (acc : String) :
    ∃ r, l.foldl (fun a x => if key x < key a then x else a) acc = r
      ∧ ((r = acc ∧ ∀ x ∈ l, key acc ≤ key x)
          ∨ ∃ l₁ l₂, l = l₁ ++ r :: l₂ ∧ key r < key acc
              ∧ (∀ x ∈ l₁, key r < key x) ∧ (∀ x ∈ l₂, key r ≤ key x)) := by
  induction l generalizing acc with
  | nil => exact ⟨acc, rfl, Or.inl ⟨rfl, by simp⟩⟩
  | cons x rest ih =>
    simp only [List.foldl_cons]
    by_cases h : key x < key acc
    · rw [if_pos h]
      obtain ⟨r, hr, hcase⟩ := ih x
      refine ⟨r, hr, Or.inr ?_⟩
      rcases hcase with ⟨rfl, hmin⟩ | ⟨l₁, l₂, hsplit, hlt, hbefore, hafter⟩
      · exact ⟨[], rest, by simp, h, by simp, hmin⟩
      · refine ⟨x :: l₁, l₂, by rw [hsplit, List.cons_append],
          lt_trans hlt h, ?_, hafter⟩
        intro y hy
        rcases List.mem_cons.mp hy with rfl | hy'
        · exact hlt
        · exact hbefore y hy'
    · rw [if_neg h]
      have hle : key acc ≤ key x := not_lt.mp h
      obtain ⟨r, hr, hcase⟩ := ih acc
      refine ⟨r, hr, ?_⟩
      rcases hcase with ⟨rfl, hmin⟩ | ⟨l₁, l₂, hsplit, hlt, hbefore, hafter⟩
      · refine Or.inl ⟨rfl, ?_⟩
        intro y hy
        rcases List.mem_cons.mp hy with rfl | hy'
        · exact hle
        · exact hmin y hy'
      · refine Or.inr ⟨x :: l₁, l₂, by rw [hsplit, List.cons_append],
          hlt, ?_, hafter⟩
        intro y hy
        rcases List.mem_cons.mp hy with rfl | hy'
        · exact lt_of_lt_of_le hlt hle
        · exact hbefore y hy'

theorem isEmpty_false_of_ne_nil (l : List String) (h : l ≠ []) :
    l.isEmpty = false := by
  cases l with
  | nil => exact absurd rfl h
  | cons a t => rfl

theorem rrNextServer_nil (st : RRState) : rrNextServer [] st = (none, st) := rfl

theorem rrNextServer_ne_nil (servers : List String) (st : RRState)
    (hne : servers ≠ []) :
    rrNextServer servers st
      = (some (servers.getD ((st.current + 1) % servers.length) ""),
         ⟨(st.current + 1) % servers.length,
          recordRequest st.requests_served
            (servers.getD ((st.current + 1) % servers.length) "")⟩) := by
  unfold rrNextServer
  simp [isEmpty_false_of_ne_nil servers hne]

theorem ipHashNextServer_ne_nil (h : String → Nat) (ip : String)
    (servers : List String) (st : IpHashState) (hne : servers ≠ []) :
    ipHashNextServer h ip servers st
      = (some (servers.getD (h ip % servers.length) ""),
         ipHashRecord st (servers.getD (h ip % servers.length) "") ip) := by
  unfold ipHashNextServer
  simp [isEmpty_false_of_ne_nil servers hne]

theorem wrrNextServer_ne_nil (fresh : String → Nat) (servers : List String)
    (st : WRRState) (hne : servers ≠ []) :
    wrrNextServer fresh servers st
      = (some (wrrChoose (wget (ensureWeights fresh st.weights servers)) servers
            ((st.current + 1)
              % ((servers.map (wget (ensureWeights fresh st.weights servers))).sum))),
         ⟨(st.current + 1)
            % ((servers.map (wget (ensureWeights fresh st.weights servers))).sum),
          ensureWeights fresh st.weights servers,
          recordRequest st.requests_served
            (wrrChoose (wget (ensureWeights fresh st.weights servers)) servers
              ((st.current + 1)
                % ((servers.map (wget (ensureWeights fresh st.weights servers))).sum)))⟩) := by
  unfold wrrNextServer wrrChoose
  simp only [isEmpty_false_of_ne_nil servers hne, Bool.false_eq_true, if_false]
  cases hwalk : wrrWalk (wget (ensureWeights fresh st.weights servers))
      ((st.current + 1)
        % ((servers.map (wget (ensureWeights fresh st.weights servers))).sum))
      servers 0 with
  | none => simp [hwalk]
  | some t => simp [hwalk]

theorem wrrWalk_mem (w : String → Nat) (l : List String) :
    ∀ c acc t, wrrWalk w c l acc = some t → t ∈ l := by
  induction l with
  | nil =>
    intro c acc t h
    simp [wrrWalk] at h
  | cons s rest ih =>
    intro c acc t h
    by_cases hc : c < acc + w s
    · rw [wrrWalk, if_pos hc] at h
      cases h
      exact List.mem_cons_self s rest
    · rw [wrrWalk, if_neg hc] at h
      exact List.mem_cons_of_mem s (ih _ _ _ h)

theorem wrrWalk_total (w : String → Nat) (l : List String) :
    ∀ c acc, acc ≤ c → c < acc + (l.map w).sum →
      ∃ t, wrrWalk w c l acc = some t := by
  induction l with
  | nil =>
    intro c acc hle hc
    simp at hc
    omega
  | cons s rest ih =>
    intro c acc hle hc
    by_cases h : c < acc + w s
    · exact ⟨s, by rw [wrrWalk, if_pos h]⟩
    · have h2 : c < (acc + w s) + (rest.map w).sum := by
        simp only [List.map_cons, List.sum_cons] at hc
        omega
      obtain ⟨t, ht⟩ := ih c (acc + w s) (by omega) h2
      exact ⟨t, by rw [wrrWalk, if_neg h]; exact ht⟩

theorem insertIfMissing_eq_or (fresh : String → Nat) (m : String → Option Nat)
    (x t : String) :
    insertIfMissing fresh m x t = m t
      ∨ insertIfMissing fresh m x t = some (fresh t) := by
  unfold insertIfMissing
  cases hx : m x with
  | some k => left; rfl
  | none =>
    by_cases ht : t = x
    · subst ht
      right
      simp
    · left
      simp [ht]

theorem insertIfMissing_self (fresh : String → Nat) (m : String → Option Nat)
    (x : String) : insertIfMissing fresh m x x ≠ none := by
  unfold insertIfMissing
  cases hx : m x with
  | some k => simp [hx]
  | none => simp

theorem ensureWeights_eq_or (fresh : String → Nat) (servers : List String) :
    ∀ (m : String → Option Nat) (t : String),
      ensureWeights fresh m servers t = m t
        ∨ ensureWeights fresh m servers t = some (fresh t) := by
  induction servers with
  | nil => intro m t; left; rfl
  | cons x rest ih =>
    intro m t
    have hstep : ensureWeights fresh m (x :: rest)
        = ensureWeights fresh (insertIfMissing fresh m x) rest := rfl
    rw [hstep]
    rcases ih (insertIfMissing fresh m x) t with h | h
    · rw [h]
      exact insertIfMissing_eq_or fresh m x t
    · right
      exact h

theorem ensureWeights_present (fresh : String → Nat) (servers : List String) :
    ∀ (m : String → Option Nat) (t : String), t ∈ servers →
      ensureWeights fresh m servers t ≠ none := by
  induction servers with
  | nil =>
    intro m t ht
    simp at ht
  | cons x rest ih =>
    intro m t ht
    have hstep : ensureWeights fresh m (x :: rest)
        = ensureWeights fresh (insertIfMissing fresh m x) rest := rfl
    rw [hstep]
    rcases List.mem_cons.mp ht with rfl | ht'
    · rcases ensureWeights_eq_or fresh rest (insertIfMissing fresh m t) t with h | h
      · rw [h]
        exact insertIfMissing_self fresh m t
      · rw [h]
        exact Option.some_ne_none _
    · exact ih (insertIfMissing fresh m x) t ht'

theorem ensureWeights_of_present (fresh : String → Nat) (servers : List String) :
    ∀ (m : String → Option Nat), (∀ t ∈ servers, m t ≠ none) →
      ensureWeights fresh m servers = m := by
  induction servers with
  | nil => intro m _; rfl
  | cons x rest ih =>
    intro m hm
    have hstep : ensureWeights fresh m (x :: rest)
        = ensureWeights fresh (insertIfMissing fresh m x) rest := rfl
    have hmx : insertIfMissing fresh m x = m := by
      unfold insertIfMissing
      cases hx : m x with
      | some k => rfl
      | none => exact absurd hx (hm x (List.mem_cons_self x rest))
    rw [hstep, hmx]
    exact ih m (fun t ht => hm t (List.mem_cons_of_mem x ht))

theorem ensureWeights_ge_one (fresh : String → Nat) (servers : List String)
    (m : String → Option Nat)
    (hfresh : ∀ t, 1 ≤ fresh t)
    (hm : ∀ t k, m t = some k → 1 ≤ k) (t : String) (ht : t ∈ servers) :
    1 ≤ wget (ensureWeights fresh m servers) t := by
  rcases ensureWeights_eq_or fresh servers m t with h | h
  · cases hmt : m t with
    | none => exact absurd (h.trans hmt) (ensureWeights_present fresh servers m t ht)
    | some k =>
      unfold wget
      rw [h, hmt, Option.getD_some]
      exact hm t k hmt
  · unfold wget
    rw [h, Option.getD_some]
    exact hfresh t

theorem sum_wget_pos (w : String → Nat) (servers : List String)
    (hne : servers ≠ []) (hw : ∀ t ∈ servers, 1 ≤ w t) :
    0 < (servers.map w).sum := by
  cases servers with
  | nil => exact absurd rfl hne
  | cons x rest =>
    simp only [List.map_cons, List.sum_cons]
    have hx : 1 ≤ w x := hw x (List.mem_cons_self x rest)
    omega

theorem wrrChoose_mem (w : String → Nat) (servers : List String) (cur : Nat)
    (hne : servers ≠ []) : wrrChoose w servers cur ∈ servers := by
  unfold wrrChoose
  cases hwalk : wrrWalk w cur servers 0 with
  | some t => exact wrrWalk_mem w servers _ _ t hwalk
  | none => exact getD_mem_of_lt servers 0 (List.length_pos.mpr hne)

theorem lcNextServer_cons (st : LCState) (s : String) (rest : List String) :
    lcNextServer st (s :: rest)
      = some (rest.foldl
          (fun a x => if (st.connections x).getD 0 < (st.connections a).getD 0
                      then x else a) s) := rfl

/-! ## Claim theorems -/

/-- Claim C2: for each of the four policies, next_server returns None
exactly when the pool is empty, leaves the policy state untouched on an
empty pool (so no counter entry is created), and on a non-empty pool
returns Some backend belonging to the pool.  The two weight hypotheses
pin the states the program can construct (weights only from the rng range
1..=10 or a caller map of positive weights), where the Rust total-weight
modulo cannot panic. -/
theorem next_contract_all_policies
    (servers : List String) (fresh : String → Nat) (h : String → Nat)
    (ip : String) (stR : RRState) (stL : LCState) (stW : WRRState)
    (stI : IpHashState)
    (_hfresh : ∀ t, 1 ≤ fresh t)
    (_hwf : ∀ t k, stW.weights t = some k → 1 ≤ k) :
    ((rrNextServer servers stR).1 = none ↔ servers = [])
    ∧ (servers = [] → rrNextServer servers stR = (none, stR))
    ∧ (servers ≠ [] → ∃ s ∈ servers, (rrNextServer servers stR).1 = some s)
    ∧ (lcNextServer stL servers = none ↔ servers = [])
    ∧ (servers ≠ [] → ∃ s ∈ servers, lcNextServer stL servers = some s)
    ∧ ((wrrNextServer fresh servers stW).1 = none ↔ servers = [])
    ∧ (servers = [] → wrrNextServer fresh servers stW = (none, stW))
    ∧ (servers ≠ [] → ∃ s ∈ servers, (wrrNextServer fresh servers stW).1 = some s)
    ∧ ((ipHashNextServer h ip servers stI).1 = none ↔ servers = [])
    ∧ (servers = [] → ipHashNextServer h ip servers stI = (none, stI))
    ∧ (servers ≠ [] → ∃ s ∈ servers, (ipHashNextServer h ip servers stI).1 = some s) := by
  refine ⟨?_, ?_, ?_, ?_, ?_, ?_, ?_, ?_, ?_, ?_, ?_⟩
  · constructor
    · intro hnone
      by_contra hne
      rw [rrNextServer_ne_nil servers stR hne] at hnone
      simp at hnone
    · intro he
      subst he
      rfl
  · intro he
    subst he
    rfl
  · intro hne
    rw [rrNextServer_ne_nil servers stR hne]
    exact ⟨servers.getD ((stR.current + 1) % servers.length) "",
      getD_mem_of_lt _ _ (Nat.mod_lt _ (List.length_pos.mpr hne)), rfl⟩
  · constructor
    · intro hnone
      by_contra hne
      cases servers with
      | nil => exact hne rfl
      | cons s rest =>
        rw [lcNextServer_cons] at hnone
        simp at hnone
    · intro he
      subst he
      rfl
  · intro hne
    cases servers with
    | nil => exact absurd rfl hne
    | cons s rest =>
      obtain ⟨r, hr, hcase⟩ :=
        foldlMinBy_spec (fun t => (stL.connections t).getD 0) rest s
      refine ⟨r, ?_, ?_⟩
      · rcases hcase with ⟨rfl, _⟩ | ⟨l₁, l₂, hsplit, _, _, _⟩
        · exact List.mem_cons_self _ _
        · have hmem : r ∈ rest := by
            rw [hsplit]
            exact List.mem_append_right l₁ (List.mem_cons_self r l₂)
          exact List.mem_cons_of_mem s hmem
      · rw [lcNextServer_cons]
        exact congrArg some hr
  · constructor
    · intro hnone
      by_contra hne
      rw [wrrNextServer_ne_nil fresh servers stW hne] at hnone
      simp at hnone
    · intro he
      subst he
      rfl
  · intro he
    subst he
    rfl
  · intro hne
    rw [wrrNextServer_ne_nil fresh servers stW hne]
    exact ⟨wrrChoose (wget (ensureWeights fresh stW.weights servers)) servers
        ((stW.current + 1)
          % ((servers.map (wget (ensureWeights fresh stW.weights servers))).sum)),
      wrrChoose_mem _ servers _ hne, rfl⟩
  · constructor
    · intro hnone
      by_contra hne
      rw [ipHashNextServer_ne_nil h ip servers stI hne] at hnone
      simp at hnone
    · intro he
      subst he
      rfl
  · intro he
    subst he
    rfl
  · intro hne
    rw [ipHashNextServer_ne_nil h ip servers stI hne]
    exact ⟨servers.getD (h ip % servers.length) "",
      getD_mem_of_lt _ _ (Nat.mod_lt _ (List.length_pos.mpr hne)), rfl⟩

/-- Witness for claim C2 at a concrete pool and concrete policy states. -/
theorem next_contract_all_policies_witness :
    ∃ s ∈ (["a", "b"] : List String),
      (rrNextServer ["a", "b"] rrInit).1 = some s := by
  have hfresh : ∀ t : String, 1 ≤ (fun _ : String => 1) t := fun _ => Nat.le_refl 1
  have hwf : ∀ t k, (wrrInit (fun _ => none)).weights t = some k → 1 ≤ k := by
    intro t k hk
    simp [wrrInit] at hk
  exact (next_contract_all_policies ["a", "b"] (fun _ => 1) (fun _ => 0) "ip"
    rrInit lcInit (wrrInit (fun _ => none)) ipInit hfresh hwf).2.2.1
    (by simp)

/-- Claim C5: on a non-empty pool the least-connections policy returns the
backend whose active-connection count (absent entries reading 0) is
minimal over the pool, and among ties the first in pool order: everything
before the returned backend has a strictly larger count, everything after
has one at least as large. -/
theorem lc_next_min_first (st : LCState) (servers : List String)
    (hne : servers ≠ []) :
    ∃ r l₁ l₂, lcNextServer st servers = some r
      ∧ servers = l₁ ++ r :: l₂
      ∧ (∀ x ∈ servers, lcActive st r ≤ lcActive st x)
      ∧ (∀ x ∈ l₁, lcActive st r < lcActive st x)
      ∧ (∀ x ∈ l₂, lcActive st r ≤ lcActive st x) := by
  cases servers with
  | nil => exact absurd rfl hne
  | cons s rest =>
    obtain ⟨r, hr, hcase⟩ :=
      foldlMinBy_spec (fun t => (st.connections t).getD 0) rest s
    have hnext : lcNextServer st (s :: rest) = some r := by
      rw [lcNextServer_cons]
      exact congrArg some hr
    rcases hcase with ⟨rfl, hmin⟩ | ⟨l₁, l₂, hsplit, hlt, hbefore, hafter⟩
    · refine ⟨r, [], rest, hnext, by simp, ?_, by simp, hmin⟩
      intro x hx
      rcases List.mem_cons.mp hx with rfl | hx'
      · exact le_refl _
      · exact hmin x hx'
    · refine ⟨r, s :: l₁, l₂, hnext, by rw [hsplit, List.cons_append], ?_, ?_, hafter⟩
      · intro x hx
        rcases List.mem_cons.mp hx with rfl | hx'
        · exact le_of_lt hlt
        · rw [hsplit] at hx'
          rcases List.mem_append.mp hx' with hx1 | hx2
          · exact le_of_lt (hbefore x hx1)
          · rcases List.mem_cons.mp hx2 with rfl | hx3
            · exact le_refl _
            · exact hafter x hx3
      · intro x hx
        rcases List.mem_cons.mp hx with rfl | hx'
        · exact hlt
        · exact hbefore x hx'

/-- Witness for claim C5: pool a,b with one active connection on a; the
policy must pick b. -/
theorem lc_next_min_first_witness :
    ∃ r l₁ l₂,
      lcNextServer ⟨fun t => if t = "a" then some 1 else none,
        fun _ => none, fun _ => none⟩ ["a", "b"] = some r
      ∧ (["a", "b"] : List String) = l₁ ++ r :: l₂
      ∧ (∀ x ∈ (["a", "b"] : List String),
          lcActive ⟨fun t => if t = "a" then some 1 else none,
            fun _ => none, fun _ => none⟩ r
            ≤ lcActive ⟨fun t => if t = "a" then some 1 else none,
                fun _ => none, fun _ => none⟩ x)
      ∧ (∀ x ∈ l₁,
          lcActive ⟨fun t => if t = "a" then some 1 else none,
            fun _ => none, fun _ => none⟩ r
            < lcActive ⟨fun t => if t = "a" then some 1 else none,
                fun _ => none, fun _ => none⟩ x)
      ∧ (∀ x ∈ l₂,
          lcActive ⟨fun t => if t = "a" then some 1 else none,
            fun _ => none, fun _ => none⟩ r
            ≤ lcActive ⟨fun t => if t = "a" then some 1 else none,
                fun _ => none, fun _ => none⟩ x) :=
  lc_next_min_first _ ["a", "b"] (by simp)

/-- Claim C9: for a fixed hash oracle, client key and non-empty pool, the
ip-hash selection is the backend at index hash(key) mod pool length, and
it does not depend on the recorded request state. -/
theorem ip_hash_stable_selection (h : String → Nat) (ip : String)
    (servers : List String) (hne : servers ≠ []) (st st' : IpHashState) :
    (ipHashNextServer h ip servers st).1 = (ipHashNextServer h ip servers st').1
    ∧ (ipHashNextServer h ip servers st).1
        = some (servers.getD (h ip % servers.length) "")
    ∧ servers.getD (h ip % servers.length) "" ∈ servers := by
  rw [ipHashNextServer_ne_nil h ip servers st hne,
    ipHashNextServer_ne_nil h ip servers st' hne]
  exact ⟨rfl, rfl,
    getD_mem_of_lt _ _ (Nat.mod_lt _ (List.length_pos.mpr hne))⟩

/-- Witness for claim C9 at a concrete oracle, key, pool and two distinct
states. -/
theorem ip_hash_stable_selection_witness :
    (ipHashNextServer (fun _ => 5) "x" ["a", "b", "c"] ipInit).1
      = (ipHashNextServer (fun _ => 5) "x" ["a", "b", "c"]
          (ipHashRecord ipInit "a" "y")).1
    ∧ (ipHashNextServer (fun _ => 5) "x" ["a", "b", "c"] ipInit).1
        = some ((["a", "b", "c"] : List String).getD
            ((fun _ : String => 5) "x" % (["a", "b", "c"] : List String).length) "") :=
  ⟨(ip_hash_stable_selection (fun _ => 5) "x" ["a", "b", "c"] (by simp)
      ipInit (ipHashRecord ipInit "a" "y")).1,
   (ip_hash_stable_selection (fun _ => 5) "x" ["a", "b", "c"] (by simp)
      ipInit (ipHashRecord ipInit "a" "y")).2.1⟩

theorem lcConnectionEnded_none (st : LCState) (id : String)
    (h : st.connections id = none) : lcConnectionEnded st id = st := by
  unfold lcConnectionEnded
  rw [h]

theorem lcConnectionEnded_nonpos (st : LCState) (id : String) (c : Int)
    (h : st.connections id = some c) (hc : ¬ 0 < c) :
    lcConnectionEnded st id = st := by
  unfold lcConnectionEnded
  rw [h]
  dsimp only
  rw [if_neg hc]

theorem lcConnectionEnded_pos (st : LCState) (id : String) (c : Int)
    (h : st.connections id = some c) (hc : 0 < c) :
    lcConnectionEnded st id
      = { connections :=
            fun t => if t = id then some (c - 1) else st.connections t
          total_requests := st.total_requests
          successful_requests :=
            fun t =>
              if t = id then some ((st.successful_requests id).getD 0 + 1)
              else st.successful_requests t } := by
  unfold lcConnectionEnded
  rw [h]
  dsimp only
  rw [if_pos hc]

theorem lcInv_preserved (st : LCState) (e : LCEvent)
    (h : ∀ t, 0 ≤ lcActive st t
        ∧ lcSuccessful st t + lcActive st t ≤ lcTotal st t) :
    ∀ t, 0 ≤ lcActive (lcApply st e) t
      ∧ lcSuccessful (lcApply st e) t + lcActive (lcApply st e) t
          ≤ lcTotal (lcApply st e) t := by
  intro u
  have hu := h u
  cases e with
  | started id =>
    by_cases he : u = id
    · subst he
      simp only [lcApply, lcConnectionStarted, lcActive, lcSuccessful,
        lcTotal] at hu ⊢
      simp
      omega
    · simp only [lcApply, lcConnectionStarted, lcActive, lcSuccessful,
        lcTotal] at hu ⊢
      rw [if_neg he, if_neg he]
      exact hu
  | ended id =>
    have hid := h id
    simp only [lcApply]
    cases hconn : st.connections id with
    | none =>
      rw [lcConnectionEnded_none st id hconn]
      exact hu
    | some c =>
      by_cases hc : 0 < c
      · rw [lcConnectionEnded_pos st id c hconn hc]
        by_cases he : u = id
        · subst he
          simp only [lcActive, lcSuccessful, lcTotal] at hu ⊢
          rw [hconn] at hu
          simp at hu ⊢
          omega
        · simp only [lcActive, lcSuccessful, lcTotal] at hu ⊢
          rw [if_neg he, if_neg he]
          exact hu
      · rw [lcConnectionEnded_nonpos st id c hconn hc]
        exact hu

theorem lcInv_foldl (events : List LCEvent) :
    ∀ (st : LCState),
      (∀ t, 0 ≤ lcActive st t
          ∧ lcSuccessful st t + lcActive st t ≤ lcTotal st t) →
      ∀ t, 0 ≤ lcActive (events.foldl lcApply st) t
        ∧ lcSuccessful (events.foldl lcApply st) t
            + lcActive (events.foldl lcApply st) t
            ≤ lcTotal (events.foldl lcApply st) t := by
  induction events with
  | nil => intro st h t; exact h t
  | cons e rest ih =>
    intro st h t
    exact ih (lcApply st e) (lcInv_preserved st e h) t

/-- Claim C6: connection_started bumps both the active and total counters
of its backend; connection_ended decrements the active counter and bumps
the successful counter exactly when the active counter is positive and
otherwise leaves the state untouched (no underflow); and after any
sequence of started/ended calls from the fresh policy, every backend has
a non-negative active counter and successful at most total. -/
theorem lc_counter_invariants (events : List LCEvent) (s : String) :
    (∀ st id, lcActive (lcConnectionStarted st id) id = lcActive st id + 1
        ∧ lcTotal (lcConnectionStarted st id) id = lcTotal st id + 1
        ∧ lcSuccessful (lcConnectionStarted st id) id = lcSuccessful st id)
    ∧ (∀ st id, 0 < lcActive st id →
        lcActive (lcConnectionEnded st id) id = lcActive st id - 1
          ∧ lcSuccessful (lcConnectionEnded st id) id = lcSuccessful st id + 1
          ∧ lcTotal (lcConnectionEnded st id) id = lcTotal st id)
    ∧ (∀ st id, ¬ 0 < lcActive st id → lcConnectionEnded st id = st)
    ∧ 0 ≤ lcActive (lcRun events) s
    ∧ lcSuccessful (lcRun events) s ≤ lcTotal (lcRun events) s := by
  have hinit : ∀ t, 0 ≤ lcActive lcInit t
      ∧ lcSuccessful lcInit t + lcActive lcInit t ≤ lcTotal lcInit t := by
    intro t
    simp [lcInit, lcActive, lcSuccessful, lcTotal]
  have hrun : 0 ≤ lcActive (lcRun events) s
      ∧ lcSuccessful (lcRun events) s + lcActive (lcRun events) s
          ≤ lcTotal (lcRun events) s :=
    lcInv_foldl events lcInit hinit s
  refine ⟨?_, ?_, ?_, hrun.1, by omega⟩
  · intro st id
    simp [lcConnectionStarted, lcActive, lcTotal, lcSuccessful]
  · intro st id hpos
    cases hconn : st.connections id with
    | none =>
      exfalso
      simp only [lcActive, hconn, Option.getD_none] at hpos
      omega
    | some c =>
      have hc : 0 < c := by
        simp only [lcActive, hconn, Option.getD_some] at hpos
        exact hpos
      rw [lcConnectionEnded_pos st id c hconn hc]
      simp [lcActive, lcSuccessful, lcTotal, hconn]
  · intro st id hnpos
    cases hconn : st.connections id with
    | none => exact lcConnectionEnded_none st id hconn
    | some c =>
      have hc : ¬ 0 < c := by
        simp only [lcActive, hconn, Option.getD_some] at hnpos
        exact hnpos
      exact lcConnectionEnded_nonpos st id c hconn hc

/-- Witness for claim C6 on a concrete event sequence. -/
theorem lc_counter_invariants_witness :
    0 ≤ lcActive (lcRun [LCEvent.started "a", LCEvent.ended "a",
        LCEvent.ended "a"]) "a"
    ∧ lcSuccessful (lcRun [LCEvent.started "a", LCEvent.ended "a",
        LCEvent.ended "a"]) "a"
        ≤ lcTotal (lcRun [LCEvent.started "a", LCEvent.ended "a",
            LCEvent.ended "a"]) "a" :=
  ⟨(lc_counter_invariants [LCEvent.started "a", LCEvent.ended "a",
      LCEvent.ended "a"] "a").2.2.2.1,
   (lc_counter_invariants [LCEvent.started "a", LCEvent.ended "a",
      LCEvent.ended "a"] "a").2.2.2.2⟩

/-- Claim C1 counterexample: a connection whose request contains the
metrics marker, handled by the round-robin policy over a one-backend
pool.  The claim as stated (no served-count recorded by next and no
started/ended pair emitted) is false: the dispatcher calls next_server
and connection_started before it ever reads the request, so the served
count of backend a is bumped and a started/ended pair is emitted. -/
theorem c1_counterexample :
    ¬ ((handleConnection rrPolicy ["a"] rrInit
          ("GET /metrics HTTP/1.1".toList)).final.requests_served "a" = none
       ∧ (handleConnection rrPolicy ["a"] rrInit
          ("GET /metrics HTTP/1.1".toList)).startedEnded = none) := by
  decide

/-- Claim C1 amended: a request containing GET /metrics in its read
prefix never causes a backend dial, but next_server has already run
(its state effects, served count included, persist in the final state)
and the started/ended pair is still emitted for the selected backend. -/
theorem c1_metrics_no_dial {σ : Type} (P : PolicyModel σ)
    (servers : List String) (st : σ) (request : List Char)
    (hreq : containsSeq metricsMarker request = true) :
    (handleConnection P servers st request).dialed = none
    ∧ (handleConnection P servers st request).startedEnded
        = (P.nextServer servers st).1
    ∧ (handleConnection P servers st request).final
        = (match P.nextServer servers st with
           | (none, st2) => st2
           | (some server, st2) =>
             P.connectionEnded server (P.connectionStarted server st2)) := by
  unfold handleConnection
  cases hstep : P.nextServer servers st with
  | mk o st2 =>
    cases o with
    | none => simp
    | some server => simp [hreq]

/-- Witness for the amended claim C1 at the concrete metrics request. -/
theorem c1_metrics_no_dial_witness :
    (handleConnection rrPolicy ["a"] rrInit
        ("GET /metrics HTTP/1.1".toList)).dialed = none
    ∧ (handleConnection rrPolicy ["a"] rrInit
        ("GET /metrics HTTP/1.1".toList)).startedEnded
        = (rrPolicy.nextServer ["a"] rrInit).1 :=
  ⟨(c1_metrics_no_dial rrPolicy ["a"] rrInit ("GET /metrics HTTP/1.1".toList)
      (by decide)).1,
   (c1_metrics_no_dial rrPolicy ["a"] rrInit ("GET /metrics HTTP/1.1".toList)
      (by decide)).2.1⟩

/-- Claim C7 counterexample: a 0-byte initial read gives the empty
request, which does not contain the metrics marker, so the forwarder
dials the selected backend instead of terminating. -/
theorem c7_counterexample :
    ¬ ((handleConnection rrPolicy ["a"] rrInit []).dialed = none) := by
  decide

/-- Claim C7 amended: a 0-byte read produces the empty request; the
metrics branch is not taken and the connection dials exactly the backend
the policy selected (so it does dial whenever the pool is non-empty). -/
theorem c7_empty_read_dials {σ : Type} (P : PolicyModel σ)
    (servers : List String) (st : σ) :
    (handleConnection P servers st []).dialed = (P.nextServer servers st).1
    ∧ (handleConnection P servers st []).wroteMetricsResponse = false := by
  have hm : containsSeq metricsMarker [] = false := rfl
  unfold handleConnection
  cases hstep : P.nextServer servers st with
  | mk o st2 =>
    cases o with
    | none => simp
    | some server => simp [hm]

/-- Claim C8 counterexample: with an empty pool the spawned worker
returns as soon as next_server yields None, before the request is ever
read, so a client sending GET /metrics gets no response at all rather
than a 200 OK. -/
theorem c8_counterexample :
    ¬ ((handleConnection rrPolicy [] rrInit
          ("GET /metrics HTTP/1.1".toList)).dialed = none
       ∧ (handleConnection rrPolicy [] rrInit
          ("GET /metrics HTTP/1.1".toList)).wroteMetricsResponse = true) := by
  decide

/-- Claim C8 amended: with an empty pool the accepted connection is
dropped without dialing, without any started/ended accounting and
without writing any response — the metrics interception never runs
because it sits after backend selection. -/
theorem c8_empty_pool_drops {σ : Type} (P : PolicyModel σ) (st : σ)
    (request : List Char) (hnone : (P.nextServer [] st).1 = none) :
    (handleConnection P [] st request).dialed = none
    ∧ (handleConnection P [] st request).wroteMetricsResponse = false
    ∧ (handleConnection P [] st request).startedEnded = none
    ∧ (handleConnection P [] st request).final = (P.nextServer [] st).2 := by
  unfold handleConnection
  cases hstep : P.nextServer [] st with
  | mk o st2 =>
    cases o with
    | none => simp
    | some server =>
      rw [hstep] at hnone
      simp at hnone

/-- Witness for the amended claim C8 with the round-robin policy. -/
theorem c8_empty_pool_drops_witness :
    (handleConnection rrPolicy [] rrInit
        ("GET /metrics HTTP/1.1".toList)).dialed = none
    ∧ (handleConnection rrPolicy [] rrInit
        ("GET /metrics HTTP/1.1".toList)).wroteMetricsResponse = false :=
  ⟨(c8_empty_pool_drops rrPolicy rrInit ("GET /metrics HTTP/1.1".toList)
      (by decide)).1,
   (c8_empty_pool_drops rrPolicy rrInit ("GET /metrics HTTP/1.1".toList)
      (by decide)).2.1⟩

theorem rr_iterOutputs (servers : List String) (hne : servers ≠ []) :
    ∀ (N : Nat) (c : Nat) (m : String → Option Nat),
      iterOutputs (rrNextServer servers) ⟨c, m⟩ N
        = (List.range N).map
            (fun i => some (servers.getD ((c + 1 + i) % servers.length) "")) := by
  intro N
  induction N with
  | zero => intro c m; rfl
  | succ N ih =>
    intro c m
    rw [iterOutputs, rrNextServer_ne_nil servers ⟨c, m⟩ hne]
    dsimp only
    rw [ih]
    rw [List.range_succ_eq_map, List.map_cons, List.map_map]
    congr 1
    apply List.map_congr_left
    intro i _
    have hidx : (c + 1) % servers.length + 1 + i = (c + 1) % servers.length + (1 + i) := by
      omega
    have hidx2 : c + 1 + (1 + i) = c + 1 + (Nat.succ i) := by
      omega
    simp only [Function.comp]
    rw [hidx, Nat.mod_add_mod, hidx2]

theorem sum_indicator_getD (l : List String) (s : String) :
    (∑ j in Finset.range l.length, if l.getD j "" = s then 1 else 0)
      = l.count s := by
  induction l with
  | nil => simp
  | cons x t ih =>
    rw [List.length_cons,
      Finset.sum_range_succ' (fun j => if (x :: t).getD j "" = s then 1 else 0)]
    simp only [List.getD_cons_succ, List.getD_cons_zero]
    rw [ih, List.count_cons]
    simp [beq_iff_eq]

/-- Claim C3: over any window of pool-length sequential round-robin calls
each backend of a duplicate-free pool is returned exactly once, and over
k times pool-length calls exactly k times, from any starting state. -/
theorem rr_strict_rotation (servers : List String) (s : String) (st : RRState)
    (hnd : servers.Nodup) (hs : s ∈ servers) (k : Nat) :
    (iterOutputs (rrNextServer servers) st servers.length).count (some s) = 1
    ∧ (iterOutputs (rrNextServer servers) st
        (k * servers.length)).count (some s) = k := by
  have hne : servers ≠ [] := by
    intro h
    subst h
    simp at hs
  have hlen : 0 < servers.length := List.length_pos.mpr hne
  obtain ⟨c, m⟩ := st
  have key : ∀ k' : Nat,
      (iterOutputs (rrNextServer servers) ⟨c, m⟩
        (k' * servers.length)).count (some s) = k' := by
    intro k'
    rw [rr_iterOutputs servers hne (k' * servers.length) c m, count_map_range]
    have hsome : ∀ i ∈ Finset.range (k' * servers.length),
        ((if some (servers.getD ((c + 1 + i) % servers.length) "") = some s
          then 1 else 0) : Nat)
          = (fun j => if servers.getD j "" = s then 1 else 0)
              ((c + 1 + i) % servers.length) := by
      intro i _
      simp
    rw [Finset.sum_congr rfl hsome,
      count_cycle (fun j => if servers.getD j "" = s then 1 else 0)
        servers.length hlen (c + 1) k',
      sum_indicator_getD servers s, List.count_eq_one_of_mem hnd hs,
      Nat.mul_one]
  constructor
  · have h1 := key 1
    rwa [Nat.one_mul] at h1
  · exact key k

/-- Witness for claim C3 on the pool a,b starting fresh with k = 2. -/
theorem rr_strict_rotation_witness :
    (iterOutputs (rrNextServer ["a", "b"]) rrInit
        (["a", "b"] : List String).length).count (some "a") = 1
    ∧ (iterOutputs (rrNextServer ["a", "b"]) rrInit
        (2 * (["a", "b"] : List String).length)).count (some "a") = 2 :=
  ⟨(rr_strict_rotation ["a", "b"] "a" rrInit (by decide) (by decide) 2).1,
   (rr_strict_rotation ["a", "b"] "a" rrInit (by decide) (by decide) 2).2⟩

theorem wrrWalk_shift (w : String → Nat) (l : List String) :
    ∀ c acc, acc ≤ c → wrrWalk w c l acc = wrrWalk w (c - acc) l 0 := by
  induction l with
  | nil => intro c acc h; rfl
  | cons s rest ih =>
    intro c acc h
    rw [wrrWalk, wrrWalk]
    by_cases hc : c < acc + w s
    · rw [if_pos hc, if_pos (by omega)]
    · rw [if_neg hc, if_neg (by omega : ¬ (c - acc < 0 + w s))]
      rw [ih c (acc + w s) (by omega), ih (c - acc) (0 + w s) (by omega)]
      congr 1
      omega

theorem wrrWalk_cons (w : String → Nat) (s : String) (rest : List String)
    (c : Nat) :
    wrrWalk w c (s :: rest) 0
      = if c < w s then some s else wrrWalk w (c - w s) rest 0 := by
  rw [wrrWalk]
  by_cases hc : c < 0 + w s
  · rw [if_pos hc, if_pos (by omega)]
  · rw [if_neg hc, if_neg (by omega : ¬ c < w s),
      wrrWalk_shift w rest c (0 + w s) (by omega)]
    congr 1
    omega

theorem wrrWalk_count (w : String → Nat) (l : List String) (s : String)
    (hnd : l.Nodup) (hs : s ∈ l) :
    (∑ c in Finset.range ((l.map w).sum),
      if wrrWalk w c l 0 = some s then 1 else 0) = w s := by
  induction l with
  | nil => simp at hs
  | cons x rest ih =>
    rw [List.map_cons, List.sum_cons, sumRangeAdd]
    have hhead : ∀ c ∈ Finset.range (w x),
        ((if wrrWalk w c (x :: rest) 0 = some s then 1 else 0) : Nat)
          = if x = s then 1 else 0 := by
      intro c hc
      rw [wrrWalk_cons, if_pos (Finset.mem_range.mp hc)]
      simp
    have htail : ∀ i ∈ Finset.range ((rest.map w).sum),
        ((if wrrWalk w (w x + i) (x :: rest) 0 = some s then 1 else 0) : Nat)
          = if wrrWalk w i rest 0 = some s then 1 else 0 := by
      intro i _
      have hlt : ¬ (w x + i < w x) := by omega
      have hsub : w x + i - w x = i := by omega
      rw [wrrWalk_cons, if_neg hlt, hsub]
    rw [Finset.sum_congr rfl hhead, Finset.sum_congr rfl htail]
    rcases List.mem_cons.mp hs with rfl | hs'
    · have hx : s ∉ rest := (List.nodup_cons.mp hnd).1
      have hz : ∀ i ∈ Finset.range ((rest.map w).sum),
          ((if wrrWalk w i rest 0 = some s then 1 else 0) : Nat) = 0 := by
        intro i _
        rw [if_neg]
        intro hEq
        exact hx (wrrWalk_mem w rest i 0 s hEq)
      rw [Finset.sum_congr rfl hz]
      simp
    · have hxs : x ≠ s := by
        rintro rfl
        exact (List.nodup_cons.mp hnd).1 hs'
      rw [if_neg hxs, ih (List.nodup_cons.mp hnd).2 hs']
      simp

theorem wrrChoose_count (w : String → Nat) (l : List String) (s : String)
    (hnd : l.Nodup) (hs : s ∈ l) :
    (∑ c in Finset.range ((l.map w).sum),
      if wrrChoose w l c = s then 1 else 0) = w s := by
  have hcong : ∀ c ∈ Finset.range ((l.map w).sum),
      ((if wrrChoose w l c = s then 1 else 0) : Nat)
        = if wrrWalk w c l 0 = some s then 1 else 0 := by
    intro c hc
    have hc' := Finset.mem_range.mp hc
    obtain ⟨t, ht⟩ := wrrWalk_total w l c 0 (Nat.zero_le c) (by omega)
    unfold wrrChoose
    rw [ht]
    simp
  rw [Finset.sum_congr rfl hcong]
  exact wrrWalk_count w l s hnd hs

theorem wrrWalk_first_exceed (w : String → Nat) (l : List String) :
    ∀ c t, wrrWalk w c l 0 = some t →
      ∃ l₁ l₂, l = l₁ ++ t :: l₂ ∧ (l₁.map w).sum ≤ c
        ∧ c < (l₁.map w).sum + w t := by
  induction l with
  | nil =>
    intro c t h
    simp [wrrWalk] at h
  | cons x rest ih =>
    intro c t h
    rw [wrrWalk_cons] at h
    by_cases hc : c < w x
    · rw [if_pos hc] at h
      cases h
      exact ⟨[], rest, rfl, by simp, by simpa using hc⟩
    · rw [if_neg hc] at h
      obtain ⟨l₁, l₂, hsplit, hle, hlt⟩ := ih (c - w x) t h
      refine ⟨x :: l₁, l₂, by rw [hsplit, List.cons_append], ?_, ?_⟩
      · simp only [List.map_cons, List.sum_cons]
        omega
      · simp only [List.map_cons, List.sum_cons]
        omega

theorem wrr_iterOutputs (fresh : String → Nat) (servers : List String)
    (hne : servers ≠ []) (m : String → Option Nat)
    (hp : ∀ t ∈ servers, m t ≠ none) :
    ∀ (N : Nat) (c : Nat) (served : String → Option Nat),
      iterOutputs (wrrNextServer fresh servers) ⟨c, m, served⟩ N
        = (List.range N).map
            (fun i => some (wrrChoose (wget m) servers
                ((c + 1 + i) % ((servers.map (wget m)).sum)))) := by
  have hens : ensureWeights fresh m servers = m :=
    ensureWeights_of_present fresh servers m hp
  intro N
  induction N with
  | zero => intro c served; rfl
  | succ N ih =>
    intro c served
    rw [iterOutputs, wrrNextServer_ne_nil fresh servers ⟨c, m, served⟩ hne]
    dsimp only
    rw [hens, ih]
    rw [List.range_succ_eq_map, List.map_cons, List.map_map]
    congr 1
    apply List.map_congr_left
    intro i _
    simp only [Function.comp]
    have hidx : (c + 1) % ((servers.map (wget m)).sum) + 1 + i
        = (c + 1) % ((servers.map (wget m)).sum) + (1 + i) := by omega
    have hidx2 : c + 1 + (1 + i) = c + 1 + (Nat.succ i) := by omega
    rw [hidx, Nat.mod_add_mod, hidx2]

/-- Claim C4: with a duplicate-free non-empty pool whose members all have
fixed weight entries of positive total, one weighted-round-robin call
advances the cursor by 1 modulo the total weight W and returns the first
backend in pool order whose cumulative weight strictly exceeds the new
cursor, and over k times W sequential calls each backend s is returned
exactly k times its weight. -/
theorem wrr_weighted_rotation (fresh : String → Nat) (servers : List String)
    (s : String) (c : Nat) (m : String → Option Nat)
    (served : String → Option Nat)
    (hnd : servers.Nodup) (hs : s ∈ servers)
    (hp : ∀ t ∈ servers, m t ≠ none)
    (hW : 0 < (servers.map (wget m)).sum) (k : Nat) :
    (iterOutputs (wrrNextServer fresh servers) ⟨c, m, served⟩
        (k * (servers.map (wget m)).sum)).count (some s) = k * wget m s
    ∧ (wrrNextServer fresh servers ⟨c, m, served⟩).2.current
        = (c + 1) % ((servers.map (wget m)).sum)
    ∧ ∃ l₁ l₂ t, servers = l₁ ++ t :: l₂
        ∧ (wrrNextServer fresh servers ⟨c, m, served⟩).1 = some t
        ∧ (l₁.map (wget m)).sum ≤ (c + 1) % ((servers.map (wget m)).sum)
        ∧ (c + 1) % ((servers.map (wget m)).sum)
            < (l₁.map (wget m)).sum + wget m t := by
  have hne : servers ≠ [] := by
    intro h
    subst h
    simp at hs
  have hens : ensureWeights fresh m servers = m :=
    ensureWeights_of_present fresh servers m hp
  have hcur : (c + 1) % ((servers.map (wget m)).sum)
      < (servers.map (wget m)).sum := Nat.mod_lt _ hW
  obtain ⟨t, ht⟩ := wrrWalk_total (wget m) servers
    ((c + 1) % ((servers.map (wget m)).sum)) 0 (Nat.zero_le _) (by omega)
  have hstep := wrrNextServer_ne_nil fresh servers ⟨c, m, served⟩ hne
  rw [hens] at hstep
  dsimp only at hstep
  refine ⟨?_, ?_, ?_⟩
  · rw [wrr_iterOutputs fresh servers hne m hp
      (k * (servers.map (wget m)).sum) c served, count_map_range]
    have hsome : ∀ i ∈ Finset.range (k * (servers.map (wget m)).sum),
        ((if some (wrrChoose (wget m) servers
            ((c + 1 + i) % ((servers.map (wget m)).sum))) = some s
          then 1 else 0) : Nat)
          = (fun j => if wrrChoose (wget m) servers j = s then 1 else 0)
              ((c + 1 + i) % ((servers.map (wget m)).sum)) := by
      intro i _
      simp
    rw [Finset.sum_congr rfl hsome,
      count_cycle (fun j => if wrrChoose (wget m) servers j = s then 1 else 0)
        ((servers.map (wget m)).sum) hW (c + 1) k,
      wrrChoose_count (wget m) servers s hnd hs]
  · rw [hstep]
  · obtain ⟨l₁, l₂, hsplit, hle, hlt⟩ :=
      wrrWalk_first_exceed (wget m) servers _ t ht
    refine ⟨l₁, l₂, t, hsplit, ?_, hle, hlt⟩
    rw [hstep]
    unfold wrrChoose
    rw [ht]

/-- Witness for claim C4: pool a,b with weights 1 and 3, one full cycle
of four calls, backend b served three times. -/
theorem wrr_weighted_rotation_witness :
    (iterOutputs (wrrNextServer (fun _ => 1) ["a", "b"])
        ⟨0, fun t => if t = "a" then some 1 else
              if t = "b" then some 3 else none, fun _ => none⟩
        (1 * ((["a", "b"] : List String).map
          (wget (fun t => if t = "a" then some 1 else
            if t = "b" then some 3 else none))).sum)).count (some "b")
      = 1 * wget (fun t => if t = "a" then some 1 else
          if t = "b" then some 3 else none) "b" :=
  (wrr_weighted_rotation (fun _ => 1) ["a", "b"] "b" 0
    (fun t => if t = "a" then some 1 else if t = "b" then some 3 else none)
    (fun _ => none) (by decide) (by decide) (by decide) (by decide) 1).1

/-- Claim C10: when every caller-supplied weight entry is at least 1 (in
particular when none were supplied) and the rng oracle draws inside
1..=10, ensure_weights leaves every pool member with an entry at least 1,
the total weight over a non-empty pool is positive (so the cursor modulo
cannot divide by zero), and the accumulation walk never falls through to
the pool[0] default. -/
theorem wrr_weights_safe (fresh : String → Nat) (m : String → Option Nat)
    (servers : List String)
    (hfresh : ∀ t, 1 ≤ fresh t ∧ fresh t ≤ 10)
    (hm : ∀ t k, m t = some k → 1 ≤ k)
    (hne : servers ≠ []) :
    (∀ t ∈ servers, ensureWeights fresh m servers t ≠ none
        ∧ 1 ≤ wget (ensureWeights fresh m servers) t)
    ∧ 0 < (servers.map (wget (ensureWeights fresh m servers))).sum
    ∧ ∀ c, wrrWalk (wget (ensureWeights fresh m servers))
        ((c + 1) % ((servers.map (wget (ensureWeights fresh m servers))).sum))
        servers 0 ≠ none := by
  have h1 : ∀ t ∈ servers, 1 ≤ wget (ensureWeights fresh m servers) t :=
    fun t ht =>
      ensureWeights_ge_one fresh servers m (fun u => (hfresh u).1) hm t ht
  have hpos : 0 < (servers.map (wget (ensureWeights fresh m servers))).sum :=
    sum_wget_pos _ servers hne h1
  refine ⟨fun t ht => ⟨ensureWeights_present fresh servers m t ht, h1 t ht⟩,
    hpos, ?_⟩
  intro c
  have hlt : (c + 1) % ((servers.map (wget (ensureWeights fresh m servers))).sum)
      < (servers.map (wget (ensureWeights fresh m servers))).sum :=
    Nat.mod_lt _ hpos
  obtain ⟨t, ht⟩ := wrrWalk_total (wget (ensureWeights fresh m servers))
    servers ((c + 1) % ((servers.map (wget (ensureWeights fresh m servers))).sum))
    0 (Nat.zero_le _) (by omega)
  rw [ht]
  exact Option.some_ne_none t

/-- Witness for claim C10 with an empty caller map and the constant rng
draw 1 on a single-backend pool. -/
theorem wrr_weights_safe_witness :
    0 < ((["a"] : List String).map
        (wget (ensureWeights (fun _ => 1) (fun _ => none) ["a"]))).sum :=
  (wrr_weights_safe (fun _ => 1) (fun _ => none) ["a"]
    (fun _ => ⟨Nat.le_refl 1, by simp⟩)
    (fun t k hk => absurd hk (by simp))
    (by simp)).2.1
